import Mathlib

/-!
Verification development for the DC_Statistic repository: a shallow embedding of
the column resolver (`load_student_list`), the completion extractor
(`extract_course_data`), the consolidator (`consolidate_data`) and the sink
upload preparation (`upload_students_to_supabase`,
`update_google_sheet_incremental`), together with theorems about the
spec-level properties of those functions.

Cells of a pandas DataFrame are modelled as `Option String`: `none` is NaN,
`some v` is the cell's string rendering.  Percentages are modelled as `ℚ`.
-/

/-! ### Python string primitives

`pyLowerChar` models Python `str.lower` restricted to the alphabets appearing
in this repository (ASCII and Russian Cyrillic); `pyStrip` models `str.strip`
(drop leading and trailing whitespace); `pyContains hay needle` models
Python's `needle in hay` substring test. -/

def pyLowerChar (c : Char) : Char :=
  if 65 ≤ c.toNat && c.toNat ≤ 90 then Char.ofNat (c.toNat + 32)
  else if 0x410 ≤ c.toNat && c.toNat ≤ 0x42F then Char.ofNat (c.toNat + 32)
  else if c.toNat == 0x401 then Char.ofNat 0x451
  else c

def lowerChars (l : List Char) : List Char := l.map pyLowerChar

def stripChars (l : List Char) : List Char :=
  ((l.dropWhile Char.isWhitespace).reverse.dropWhile Char.isWhitespace).reverse

def pyLower (s : String) : String := ⟨lowerChars s.data⟩

def pyStrip (s : String) : String := ⟨stripChars s.data⟩

def pyContains (hay needle : String) : Bool := decide (needle.data <:+: hay.data)

def strStartsWith (s p : String) : Bool := p.data.isPrefixOf s.data

/-- The institutional domain marker `'@edu.hse.ru'` used by every filter in
the repository. -/
def hseMarker : String := "@edu.hse.ru"

/-- `str(cell)` of a pandas cell: NaN renders as the string `"nan"`. -/
def cellStr (c : Option String) : String :=
  match c with
  | none => "nan"
  | some v => v

/-- The pattern `'@edu.hse.ru'` as compiled by `re` with default flags, which
is what `pandas.Series.str.contains` uses (its default is `regex=True`): a
literal character (`some c`) matches exactly itself, case-sensitively, and
each `.` of the pattern (`none`) is a wildcard matching any single character
except the newline. -/
def markerPattern : List (Option Char) :=
  [some '@', some 'e', some 'd', some 'u', none, some 'h', some 's', some 'e',
   none, some 'r', some 'u']

def charMatches (p : Option Char) (c : Char) : Bool :=
  match p with
  | some a => a == c
  | none => !(c == '\n')

/-- The pattern matches a prefix of the character list. -/
def patMatchesAt : List (Option Char) → List Char → Bool
  | [], _ => true
  | _ :: _, [] => false
  | p :: ps, c :: cs => charMatches p c && patMatchesAt ps cs

/-- `re.search`: the pattern matches starting at some position. -/
def patSearch (pat : List (Option Char)) : List Char → Bool
  | [] => patMatchesAt pat []
  | c :: cs => patMatchesAt pat (c :: cs) || patSearch pat cs

/-- `Series.str.contains('@edu.hse.ru', na=False)` applied to one string: a
case-sensitive regular-expression search of the domain pattern, with the dots
acting as single-character wildcards. -/
def pdStrContainsMarker (s : String) : Bool := patSearch markerPattern s.data

/-! ### Completion Extractor (`extract_course_data`)

A course export is a `Frame`: a detected email column (one cell per row) plus
the remaining columns.  `colNames` names the non-email columns in file order;
each row carries its cells aligned with `colNames`. -/

structure FRow where
  email : Option String
  cells : List (Option String)
deriving DecidableEq

structure Frame where
  emailName : String
  colNames : List String
  rows : List FRow
deriving DecidableEq

def colVals (f : Frame) (j : Nat) : List (Option String) :=
  f.rows.map (fun r => r.cells.getD j none)

/-- `df[col].dropna().astype(str).head(k)`. -/
def sampleNonNull (vals : List (Option String)) (k : Nat) : List String :=
  (vals.filterMap id).take k

/-- The denylist applied to the ЦГ course before candidate-column detection
(`cg_excluded_keywords` in the source, reproduced verbatim). -/
def cgExcludedKeywords : List String :=
  ["take away", "шпаргалка", "консультация", "общая информация", "промо-ролик",
   "поддержка студентов", "пояснение", "случайный вариант для студентов с овз",
   "материалы по модулю", "копия", "демонстрационный вариант", "спецификация",
   "демо-версия", "правила проведения независимого экзамена",
   "порядок организации и проведения независимых экзаменов",
   "интерактивный тренажер правил нэ", "пересдачи в сентябре", "незрячих и слабовидящих",
   "проекты с использование tei", "тренировочный тест", "ключевые принципы tei",
   "базовые возможности tie", "специальные модули tei", "будут идентичными",
   "опрос", "тест по модулю", "анкета", "user information", "страна", "user_id",
   "данные о пользователе"]

def cgExcludedName (nm : String) : Bool :=
  cgExcludedKeywords.any (fun kw => pyContains (pyLower (pyStrip nm)) (pyLower kw))

/-- The skip test `col not in ['Unnamed: 0', email_column, 'Данные о пользователе',
'User information', 'Страна']`, plus the ЦГ denylist when the course is ЦГ. -/
def consideredCol (f : Frame) (isCG : Bool) (nm : String) : Bool :=
  !(nm == "Unnamed: 0" || nm == f.emailName || nm == "Данные о пользователе" ||
    nm == "User information" || nm == "Страна") &&
  (!isCG || !cgExcludedName nm)

/-- A timestamp-shaped value: contains a year token from the fixed recent-year
set and a colon. -/
def tsShaped (v : String) : Bool :=
  (["2020", "2021", "2022", "2023", "2024"].any (fun y => pyContains v y)) &&
  pyContains v ":"

/-- Detection of a status-label candidate column: a named column whose first
100 non-null samples contain a "done" marker and are not all "Не выполнено". -/
def statusCandidateCol (nm : String) (vals : List (Option String)) : Bool :=
  !strStartsWith nm "Unnamed:" && decide (0 < (pyStrip nm).data.length) &&
  ((sampleNonNull vals 100).any
      (fun v => pyContains v "Выполнено" || pyContains (pyLower v) "выполнено") &&
   !((sampleNonNull vals 100).all (fun v => v == "Не выполнено")))

/-- Detection of a timestamp candidate column: an auto-named `Unnamed:` column
(other than the index column) whose first 20 non-null samples include a
timestamp-shaped value. -/
def tsCandidateCol (nm : String) (vals : List (Option String)) : Bool :=
  strStartsWith nm "Unnamed:" && !(nm == "Unnamed: 0") &&
  ((sampleNonNull vals 20).any (fun v => tsShaped (pyStrip v)))

def candidateIdxs (f : Frame) (isCG : Bool)
    (pick : String → List (Option String) → Bool) : List Nat :=
  (List.range f.colNames.length).filter (fun j =>
    consideredCol f isCG (f.colNames.getD j "") &&
    pick (f.colNames.getD j "") (colVals f j))

def tsIdxs (f : Frame) (isCG : Bool) : List Nat := candidateIdxs f isCG tsCandidateCol

def statusIdxs (f : Frame) (isCG : Bool) : List Nat := candidateIdxs f isCG statusCandidateCol

/-- `str(cell_val).strip() if not pd.isna(cell_val) else ''`. -/
def strOfCell (c : Option String) : String :=
  match c with
  | none => ""
  | some v => pyStrip v

/-- The per-row email guard
`pd.isna(email_val) or '@edu.hse.ru' not in str(email_val).lower()`. -/
def emailOk (c : Option String) : Bool :=
  match c with
  | none => false
  | some v => pyContains (pyLower v) hseMarker

/-- The emitted email `str(email_val).lower().strip()`. -/
def emitEmail (c : Option String) : String := pyStrip (pyLower (cellStr c))

def rowCellsAt (r : FRow) (idxs : List Nat) : List (Option String) :=
  idxs.map (fun j => r.cells.getD j none)

/-- The timestamp-strategy inner loop counting completed tasks for one row. -/
def tsRowCompleted (cells : List (Option String)) : Nat :=
  cells.foldl (fun acc c =>
    if strOfCell c != "" && strOfCell c != "nan" && tsShaped (strOfCell c)
    then acc + 1 else acc) 0

/-- `(completed_tasks / total_tasks * 100) if total_tasks > 0 else 0`. -/
def tsRowPercent (cells : List (Option String)) : ℚ :=
  if 0 < cells.length
  then (tsRowCompleted cells : ℚ) / (cells.length : ℚ) * 100
  else 0

/-- The timestamp strategy: one `(email, percentage)` record per row whose
email passes the domain filter. -/
def tsExtract (f : Frame) (isCG : Bool) : List (String × ℚ) :=
  f.rows.filterMap (fun r =>
    if emailOk r.email
    then some (emitEmail r.email, tsRowPercent (rowCellsAt r (tsIdxs f isCG)))
    else none)

/-- The status-label inner loop: `(total_tasks, completed_tasks)` for one row.
Only non-empty (and non-`'nan'`) cells count toward `total_tasks`. -/
def statusRowTotals (cells : List (Option String)) : Nat × Nat :=
  cells.foldl (fun (p : Nat × Nat) c =>
    if strOfCell c != "" && strOfCell c != "nan" then
      (p.1 + 1,
       if pyContains (strOfCell c) "Выполнено" ||
          pyContains (pyLower (strOfCell c)) "выполнено"
       then p.2 + 1 else p.2)
    else p) (0, 0)

def statusRowPercent (cells : List (Option String)) : ℚ :=
  if 0 < (statusRowTotals cells).1
  then ((statusRowTotals cells).2 : ℚ) / ((statusRowTotals cells).1 : ℚ) * 100
  else 0

/-- The status-label strategy records. -/
def statusExtract (f : Frame) (isCG : Bool) : List (String × ℚ) :=
  f.rows.filterMap (fun r =>
    if emailOk r.email
    then some (emitEmail r.email, statusRowPercent (rowCellsAt r (statusIdxs f isCG)))
    else none)

inductive XStrategy
  | timestamps
  | statusLabels
  | directCol
deriving DecidableEq

/-- The `if timestamp_columns: ... elif completed_columns: ...` dispatch of
`extract_course_data`. -/
def chooseStrategy (f : Frame) (isCG : Bool) : XStrategy :=
  if !(tsIdxs f isCG).isEmpty then .timestamps
  else if !(statusIdxs f isCG).isEmpty then .statusLabels
  else .directCol

/-- The direct-percentage fallback: the first column named by the fixed
completion-synonym list, read as-is per student, with email normalization and
the domain filter; `none` when no such column exists. -/
def directExtract (f : Frame) : Option (List (String × Option String)) :=
  match ["Процент завершения", "Completion", "Progress", "Прогресс", "Завершение"].findSome?
      (fun nm => f.colNames.findIdx? (fun c => c == nm)) with
  | none => none
  | some j =>
    some ((f.rows.map (fun r => (emitEmail r.email, r.cells.getD j none))).filter
      (fun p => pdStrContainsMarker p.1))

inductive ExtractResult
  | fromTimestamps (recs : List (String × ℚ))
  | fromStatusLabels (recs : List (String × ℚ))
  | fromDirectColumn (recs : Option (List (String × Option String)))
deriving DecidableEq

/-- The whole of `extract_course_data` after column detection: exactly one of
the three strategies produces the output. -/
def extract_course_data (f : Frame) (isCG : Bool) : ExtractResult :=
  match chooseStrategy f isCG with
  | .timestamps => .fromTimestamps (tsExtract f isCG)
  | .statusLabels => .fromStatusLabels (statusExtract f isCG)
  | .directCol => .fromDirectColumn (directExtract f)

/-! ### Column Resolver (`load_student_list`)

The canonical schema (8 target fields with their synonym lists, identical in
`streamlit_app.py` and `separated_db_functions.py`), synonym matching,
composite-column parsing, default filling, and the email post-filter. -/

def requiredFields : List (String × List String) :=
  [("ФИО", ["фио", "фio", "имя", "name"]),
   ("Корпоративная почта",
      ["адрес электронной почты", "корпоративная почта", "email", "почта", "e-mail"]),
   ("Филиал (кампус)", ["филиал", "кампус", "campus"]),
   ("Факультет", ["факультет", "faculty"]),
   ("Образовательная программа",
      ["образовательная программа", "программа", "educational program"]),
   ("Версия образовательной программы",
      ["версия образовательной программы", "версия программы", "program version", "version"]),
   ("Группа", ["группа", "group"]),
   ("Курс", ["курс", "course"])]

/-- First header whose `str(col).lower().strip()` form contains a synonym. -/
def findHeaderFor (headers : List String) (syns : List String) : Option String :=
  headers.find? (fun h => syns.any (fun syn => pyContains (pyStrip (pyLower h)) syn))

/-- `found_columns`: target field name paired with the matched source header. -/
def found_columns (headers : List String) : List (String × String) :=
  requiredFields.filterMap (fun fld =>
    (findHeaderFor headers fld.2).map (fun h => (fld.1, h)))

/-- Provenance of a column of the resolver's output data frame. -/
inductive ColSource
  | fromHeader (h : String)
  | userInfoPart (i : Nat)
  | defaultEmpty
  | defaultNull
deriving DecidableEq

/-- `result_df[k] = v`: overwrite the column if present, else append it. -/
def setColumn (m : List (String × ColSource)) (k : String) (v : ColSource) :
    List (String × ColSource) :=
  if m.any (fun p => p.1 == k) then m.map (fun p => if p.1 == k then (k, v) else p)
  else m ++ [(k, v)]

/-- The composite-column path: when `'Данные о пользователе'` is a header and
its `';'`-split yields at least 4 parts, the four positional parts overwrite
Факультет / Образовательная программа / Курс / Группа. -/
def applyUserInfo (m : List (String × ColSource)) (headers : List String)
    (nParts : Nat) : List (String × ColSource) :=
  if headers.contains "Данные о пользователе" = true ∧ 4 ≤ nParts then
    setColumn (setColumn (setColumn (setColumn m
      "Факультет" (.userInfoPart 0))
      "Образовательная программа" (.userInfoPart 1))
      "Курс" (.userInfoPart 2))
      "Группа" (.userInfoPart 3)
  else m

/-- One step of default filling: add the field with its default value when it
is not yet a column of the result. -/
def fdStep (fioNull : Bool) (acc : List (String × ColSource)) (fld : String × List String) :
    List (String × ColSource) :=
  if acc.any (fun p => p.1 == fld.1) then acc
  else acc ++ [(fld.1,
    if fioNull && fld.1 == "ФИО" then ColSource.defaultNull else ColSource.defaultEmpty)]

/-- Default filling for absent canonical fields.  In
`separated_db_functions.py` (`fioNull = true`) ФИО defaults to null and every
other field to the empty string; in `streamlit_app.py` (`fioNull = false`)
every field, ФИО included, defaults to the empty string. -/
def fillDefaults (fioNull : Bool) (m : List (String × ColSource)) :
    List (String × ColSource) :=
  requiredFields.foldl (fdStep fioNull) m

/-- The resolver's output schema: synonym matching, then composite-column
overwrite, then default filling. -/
def resolveSchema (fioNull : Bool) (headers : List String) (nParts : Nat) :
    List (String × ColSource) :=
  fillDefaults fioNull
    (applyUserInfo ((found_columns headers).map (fun p => (p.1, ColSource.fromHeader p.2)))
      headers nParts)

/-- The resolver's email post-filter and normalization
(`result_df[result_df['Корпоративная почта'].astype(str).str.contains('@edu.hse.ru', na=False)]`
followed by `.astype(str).str.lower().str.strip()`): the filter is a
case-sensitive regex search of the domain pattern (dots are wildcards) on the
raw cell string; the lowering and trimming happen only afterwards. -/
def load_student_list_emails (cells : List (Option String)) : List String :=
  ((cells.map cellStr).filter (fun s => pdStrContainsMarker s)).map
    (fun s => pyStrip (pyLower s))

/-! ### Consolidator (`consolidate_data`) -/

structure RosterRow where
  email : String
  name : String
deriving DecidableEq

/-- `pd.merge(consolidated, course_data, on='Корпоративная почта', how='left')`
followed by `.where(pd.notna(...), None)`: every roster row is kept, matched
course rows contribute their percentage, and a roster row without a match gets
the explicit `None` marker. -/
def consolidate_merge (roster : List RosterRow) (course : List (String × ℚ)) :
    List (RosterRow × Option ℚ) :=
  roster.flatMap (fun r =>
    match course.filter (fun c => c.1 == r.email) with
    | [] => [(r, none)]
    | ms => ms.map (fun m => (r, some m.2)))

/-- `consolidated.drop_duplicates(subset=['Корпоративная почта'], keep='first')`:
one pass over the rows keeping a row only when its key has not been seen. -/
def drop_duplicates_first {α : Type} (key : α → String) :
    List α → List String → List α
  | [], _ => []
  | r :: rs, seen =>
    if key r ∈ seen then drop_duplicates_first key rs seen
    else r :: drop_duplicates_first key rs (key r :: seen)

/-! ### Sink adapters -/

/-- Field merge rule of `update_google_sheet_incremental` for the roster text
columns: `merged_df[col].fillna(merged_df[col_old])` — a non-null new value
wins, a null new value keeps the stored one. -/
def merge_text_field (newV oldV : Option String) : Option String :=
  match newV with
  | some v => some v
  | none => oldV

/-- Field merge rule of `update_google_sheet_incremental` for the percentage
columns: `row[col] if pd.notna(row[col]) and row[col] != 0 else
(row[col_old] if pd.notna(row[col_old]) else 0)` — a new value of `0` is
treated like a missing value and the stored value is kept. -/
def merge_percent_field (newV oldV : Option ℚ) : ℚ :=
  match newV with
  | some v => if v = 0 then (match oldV with | some o => o | none => 0) else v
  | none => match oldV with | some o => o | none => 0

/-- A `course_analytics` row as handled by `upload_to_supabase`: the roster
text columns and the three `процент_*` columns, each nullable. -/
structure CARecord where
  textFields : List (Option String)
  percentFields : List (Option ℚ)
deriving DecidableEq

/-- `upload_to_supabase`'s change test for a `процент_*` column: two nulls are
equal, a null differs from a value, and two values differ when they are more
than the 0.01 tolerance apart (`abs(float(existing) - float(value)) > 0.01`). -/
def percentFieldDiffers (newV oldV : Option ℚ) : Bool :=
  match newV, oldV with
  | none, none => false
  | none, some _ => true
  | some _, none => true
  | some v, some o => decide ((1 : ℚ) / 100 < |o - v|)

/-- `upload_to_supabase`'s change test for a text column: the stripped string
renderings differ, with null distinct from every string (the special-cased
`версия_образовательной_программы` branch yields the same boolean outcome). -/
def textFieldDiffers (newV oldV : Option String) : Bool :=
  !((oldV.map pyStrip) == (newV.map pyStrip))

/-- `needs_update` of `upload_to_supabase`: some compared field differs. -/
def needsUpdate (newR oldR : CARecord) : Bool :=
  ((newR.textFields.zip oldR.textFields).any (fun p => textFieldDiffers p.1 p.2)) ||
  ((newR.percentFields.zip oldR.percentFields).any (fun p => percentFieldDiffers p.1 p.2))

/-- The Supabase update step of `upload_to_supabase`: when any field differs,
`supabase.table('course_analytics').update(record)` writes the whole new
record over the stored row — nulls included — and otherwise the stored row is
left unchanged (row-level replacement, not a field-level merge). -/
def upload_to_supabase_update (newR oldR : CARecord) : CARecord :=
  if needsUpdate newR oldR then newR else oldR

structure StudentRow where
  email : Option String
  payload : String
deriving DecidableEq

/-- `str(row.get('Корпоративная почта', '')).strip().lower()`. -/
def rowEmailNorm (r : StudentRow) : String := pyLower (pyStrip (cellStr r.email))

/-- The record-preparation loop of `upload_students_to_supabase` (the same
guard sequence appears in `upload_course_data_to_supabase` and
`upload_to_supabase`): skip empty or non-institutional emails, skip emails
already processed in this run, keep the first occurrence. -/
def upload_students_records : List StudentRow → List String → List (String × String)
  | [], _ => []
  | r :: rs, seen =>
    if rowEmailNorm r == "" || !pyContains (rowEmailNorm r) hseMarker then
      upload_students_records rs seen
    else if rowEmailNorm r ∈ seen then upload_students_records rs seen
    else (rowEmailNorm r, r.payload) :: upload_students_records rs (rowEmailNorm r :: seen)

/-! ### Claim-level predicates and witness fixtures -/

/-- The claim-level form of a completed timestamp cell: non-empty and
timestamp-shaped (after the per-cell `strip`). -/
def cellTsDone (c : Option String) : Bool :=
  strOfCell c != "" && tsShaped (strOfCell c)

/-- A status cell that counts toward the denominator: non-empty (and not the
string rendering of NaN). -/
def cellAttempted (c : Option String) : Bool :=
  strOfCell c != "" && strOfCell c != "nan"

/-- A status cell that counts as done. -/
def cellDone (c : Option String) : Bool :=
  cellAttempted c &&
  (pyContains (strOfCell c) "Выполнено" || pyContains (pyLower (strOfCell c)) "выполнено")

/-- A student row that survives the sink upload guard: non-empty normalized
email containing the institutional marker. -/
def rowQualifies (r : StudentRow) : Bool :=
  !(rowEmailNorm r == "") && pyContains (rowEmailNorm r) hseMarker

def wRowTs : FRow := ⟨some "a@edu.hse.ru", [some "01.02.2023 10:15", none]⟩

def wFrameTs : Frame :=
  ⟨"Адрес электронной почты", ["Unnamed: 1", "Unnamed: 2"], [wRowTs]⟩

def wRowSt : FRow := ⟨some "b@edu.hse.ru", [some "Выполнено", none]⟩

def wFrameSt : Frame :=
  ⟨"Адрес электронной почты", ["Задача 1", "Задача 2"], [wRowSt]⟩

def wFrameStrat : Frame :=
  ⟨"Email", ["Unnamed: 1"], [⟨some "c@edu.hse.ru", [some "15.03.2024 12:00"]⟩]⟩

/-! ### Lemmas about the per-row extraction loops -/

theorem ts_cond_eq (c : Option String) :
    (strOfCell c != "" && strOfCell c != "nan" && tsShaped (strOfCell c)) = cellTsDone c := by
  unfold cellTsDone
  by_cases h : strOfCell c = "nan"
  · rw [h]; decide
  · have hb : (strOfCell c != "nan") = true := by simpa using h
    rw [Bool.and_assoc, hb, Bool.true_and]

theorem tsRowCompleted_eq (cells : List (Option String)) :
    tsRowCompleted cells = cells.countP cellTsDone := by
  have aux : ∀ (l : List (Option String)) (n : Nat),
      l.foldl (fun acc c =>
        if strOfCell c != "" && strOfCell c != "nan" && tsShaped (strOfCell c)
        then acc + 1 else acc) n = n + l.countP cellTsDone := by
    intro l
    induction l with
    | nil => intro n; simp
    | cons c cs ih =>
      intro n
      simp only [List.foldl_cons]
      rw [ts_cond_eq c]
      by_cases hd : cellTsDone c = true
      · rw [if_pos hd, ih, List.countP_cons, hd]
        simp
        omega
      · rw [if_neg hd, ih, List.countP_cons,
          Bool.eq_false_iff.mpr hd]
        simp
  have := aux cells 0
  simpa [tsRowCompleted] using this

theorem statusRowTotals_eq (cells : List (Option String)) :
    statusRowTotals cells = (cells.countP cellAttempted, cells.countP cellDone) := by
  have aux : ∀ (l : List (Option String)) (a b : Nat),
      l.foldl (fun (p : Nat × Nat) c =>
        if strOfCell c != "" && strOfCell c != "nan" then
          (p.1 + 1,
           if pyContains (strOfCell c) "Выполнено" ||
              pyContains (pyLower (strOfCell c)) "выполнено"
           then p.2 + 1 else p.2)
        else p) (a, b) = (a + l.countP cellAttempted, b + l.countP cellDone) := by
    intro l
    induction l with
    | nil => intro a b; simp
    | cons c cs ih =>
      intro a b
      simp only [List.foldl_cons]
      by_cases hA : (strOfCell c != "" && strOfCell c != "nan") = true
      · have hAc : cellAttempted c = true := hA
        rw [if_pos hA]
        by_cases hD : (pyContains (strOfCell c) "Выполнено" ||
            pyContains (pyLower (strOfCell c)) "выполнено") = true
        · have hDc : cellDone c = true := by
            unfold cellDone
            rw [hAc, hD]
            decide
          rw [if_pos hD, ih]
          simp [List.countP_cons, hAc, hDc]
          omega
        · have hDc : cellDone c = false := by
            unfold cellDone
            rw [Bool.eq_false_iff.mpr hD, Bool.and_false]
          rw [if_neg hD, ih]
          simp [List.countP_cons, hAc, hDc]
          omega
      · have hAc : cellAttempted c = false := Bool.eq_false_iff.mpr hA
        have hDc : cellDone c = false := by
          unfold cellDone
          rw [hAc, Bool.false_and]
        rw [if_neg hA, ih]
        simp [List.countP_cons, hAc, hDc]
  have := aux cells 0 0
  simpa [statusRowTotals] using this

/-! ### Claims C1, C2 and C3 -/

/-- C1: in the timestamp-presence strategy, every course-file row whose email
passes the domain filter is emitted with percentage `100 * k / n`, where `n`
is the number of timestamp candidate columns and `k` the number of those
columns holding a non-empty timestamp-shaped value in that row; `n = 0`
yields `0` by definition rather than a division error. -/
theorem timestamp_strategy_percentage (f : Frame) (isCG : Bool) (r : FRow)
    (hr : r ∈ f.rows) (he : emailOk r.email = true) :
    (emitEmail r.email,
      if (tsIdxs f isCG).length = 0 then (0 : ℚ)
      else 100 * ((rowCellsAt r (tsIdxs f isCG)).countP cellTsDone : ℚ) /
        ((tsIdxs f isCG).length : ℚ)) ∈ tsExtract f isCG := by
  have hlen : (rowCellsAt r (tsIdxs f isCG)).length = (tsIdxs f isCG).length := by
    simp [rowCellsAt]
  have hpct : tsRowPercent (rowCellsAt r (tsIdxs f isCG)) =
      (if (tsIdxs f isCG).length = 0 then (0 : ℚ)
       else 100 * ((rowCellsAt r (tsIdxs f isCG)).countP cellTsDone : ℚ) /
         ((tsIdxs f isCG).length : ℚ)) := by
    unfold tsRowPercent
    rw [tsRowCompleted_eq, hlen]
    rcases Nat.eq_zero_or_pos (tsIdxs f isCG).length with h0 | hpos
    · rw [h0]
      simp
    · rw [if_pos hpos, if_neg (Nat.pos_iff_ne_zero.mp hpos)]
      rw [div_mul_eq_mul_div, mul_comm]
  rw [← hpct]
  exact List.mem_filterMap.mpr ⟨r, hr, by simp [he]⟩

theorem timestamp_strategy_percentage_witness :
    ("a@edu.hse.ru", (100 : ℚ)) ∈ tsExtract wFrameTs false := by
  have h := timestamp_strategy_percentage wFrameTs false wRowTs (by decide) (by decide)
  have hn : (tsIdxs wFrameTs false).length = 1 := by decide
  have hk : (rowCellsAt wRowTs (tsIdxs wFrameTs false)).countP cellTsDone = 1 := by decide
  have he : emitEmail wRowTs.email = "a@edu.hse.ru" := by decide
  rw [he, hn, hk] at h
  norm_num at h
  exact h

/-- C2: in the status-label strategy, a candidate column whose cell is empty
(or NaN) for a student is excluded from that student's denominator, and the
emitted percentage is `100 * done / attempted` over the non-empty candidate
cells, with `attempted = 0` yielding `0` rather than a division error. -/
theorem status_strategy_percentage (f : Frame) (isCG : Bool) (r : FRow)
    (hr : r ∈ f.rows) (he : emailOk r.email = true) :
    (emitEmail r.email,
      if (rowCellsAt r (statusIdxs f isCG)).countP cellAttempted = 0 then (0 : ℚ)
      else 100 * ((rowCellsAt r (statusIdxs f isCG)).countP cellDone : ℚ) /
        ((rowCellsAt r (statusIdxs f isCG)).countP cellAttempted : ℚ))
      ∈ statusExtract f isCG := by
  have hpct : statusRowPercent (rowCellsAt r (statusIdxs f isCG)) =
      (if (rowCellsAt r (statusIdxs f isCG)).countP cellAttempted = 0 then (0 : ℚ)
       else 100 * ((rowCellsAt r (statusIdxs f isCG)).countP cellDone : ℚ) /
         ((rowCellsAt r (statusIdxs f isCG)).countP cellAttempted : ℚ)) := by
    unfold statusRowPercent
    rw [statusRowTotals_eq]
    dsimp only
    rcases Nat.eq_zero_or_pos ((rowCellsAt r (statusIdxs f isCG)).countP cellAttempted)
      with h0 | hpos
    · rw [h0]
      simp
    · rw [if_pos hpos, if_neg (Nat.pos_iff_ne_zero.mp hpos)]
      rw [div_mul_eq_mul_div, mul_comm]
  rw [← hpct]
  exact List.mem_filterMap.mpr ⟨r, hr, by simp [he]⟩

theorem status_strategy_percentage_witness :
    ("b@edu.hse.ru", (100 : ℚ)) ∈ statusExtract wFrameSt false := by
  have h := status_strategy_percentage wFrameSt false wRowSt (by decide) (by decide)
  have ha : (rowCellsAt wRowSt (statusIdxs wFrameSt false)).countP cellAttempted = 1 := by decide
  have hk : (rowCellsAt wRowSt (statusIdxs wFrameSt false)).countP cellDone = 1 := by decide
  have he : emitEmail wRowSt.email = "b@edu.hse.ru" := by decide
  rw [he, ha, hk] at h
  norm_num at h
  exact h

/-- C3: the three extraction strategies are mutually exclusive and tried in
fixed priority order — timestamp candidates first, then status-label
candidates, then the direct-percentage column — and exactly one of them
produces the output for a file. -/
theorem extract_strategy_priority (f : Frame) (isCG : Bool) :
    (chooseStrategy f isCG = XStrategy.timestamps ↔ tsIdxs f isCG ≠ []) ∧
    (chooseStrategy f isCG = XStrategy.statusLabels ↔
      tsIdxs f isCG = [] ∧ statusIdxs f isCG ≠ []) ∧
    (chooseStrategy f isCG = XStrategy.directCol ↔
      tsIdxs f isCG = [] ∧ statusIdxs f isCG = []) ∧
    (tsIdxs f isCG ≠ [] →
      extract_course_data f isCG = ExtractResult.fromTimestamps (tsExtract f isCG)) ∧
    (tsIdxs f isCG = [] → statusIdxs f isCG ≠ [] →
      extract_course_data f isCG = ExtractResult.fromStatusLabels (statusExtract f isCG)) ∧
    (tsIdxs f isCG = [] → statusIdxs f isCG = [] →
      extract_course_data f isCG = ExtractResult.fromDirectColumn (directExtract f)) := by
  by_cases h1 : tsIdxs f isCG = [] <;> by_cases h2 : statusIdxs f isCG = [] <;>
    simp [chooseStrategy, extract_course_data, h1, h2]

theorem extract_strategy_priority_witness :
    chooseStrategy wFrameStrat false = XStrategy.timestamps :=
  (extract_strategy_priority wFrameStrat false).1.mpr (by decide)

/-! ### Claim C4 -/

/-- C4 counterexample, in two parts.  First, an email equal to the
institutional domain marker up to case (`A@EDU.HSE.RU`) is dropped by the
roster filter, though the claim's case-insensitive containment would retain
it: the regex search runs case-sensitively on the raw string and lowercasing
happens only after the filter.  Second, the filter is not substring
containment either: `a@eduXhseYru` is retained because the pattern's dots
match any character, yet neither it nor its lowercased form contains the
literal marker. -/
theorem roster_filter_marker_counterexample :
    (pyContains (pyLower "A@EDU.HSE.RU") hseMarker = true ∧
     load_student_list_emails [some "A@EDU.HSE.RU"] = []) ∧
    (load_student_list_emails [some "a@eduXhseYru"] = ["a@eduxhseyru"] ∧
     pyContains "a@eduXhseYru" hseMarker = false ∧
     pyContains (pyLower "a@eduXhseYru") hseMarker = false) := by
  refine ⟨⟨by decide, by decide⟩, by decide, by decide, by decide⟩

/-- C4 (amended): retention is decided by a case-sensitive regular-expression
search of the pattern `'@edu.hse.ru'` — the pandas `str.contains` default, so
each dot matches one arbitrary character — applied to the raw email string
before any normalization.  Every row whose raw email matches the pattern is
retained and emitted lowercased and trimmed, and every retained record arises
from a row whose raw email matches the pattern, so records failing the
pattern never appear in the output. -/
theorem roster_email_filter (cells : List (Option String)) :
    (∀ c ∈ cells, pdStrContainsMarker (cellStr c) = true →
      pyStrip (pyLower (cellStr c)) ∈ load_student_list_emails cells) ∧
    (∀ e ∈ load_student_list_emails cells,
      ∃ c ∈ cells, pdStrContainsMarker (cellStr c) = true ∧
        e = pyStrip (pyLower (cellStr c))) := by
  constructor
  · intro c hc hmk
    apply List.mem_map.mpr
    refine ⟨cellStr c, ?_, rfl⟩
    exact List.mem_filter.mpr ⟨List.mem_map.mpr ⟨c, hc, rfl⟩, hmk⟩
  · intro e he
    obtain ⟨s, hs, rfl⟩ := List.mem_map.mp he
    have hmem := List.mem_filter.mp hs
    obtain ⟨c, hc, rfl⟩ := List.mem_map.mp hmem.1
    exact ⟨c, hc, hmem.2, rfl⟩

theorem roster_email_filter_witness :
    "c@edu.hse.ru" ∈ load_student_list_emails [some "c@edu.hse.ru"] := by
  have h := (roster_email_filter [some "c@edu.hse.ru"]).1
    (some "c@edu.hse.ru") (by decide) (by decide)
  have e : pyStrip (pyLower (cellStr (some "c@edu.hse.ru"))) = "c@edu.hse.ru" := by decide
  exact e ▸ h

/-! ### Claim C5 -/

theorem drop_duplicates_first_unseen {α : Type} (key : α → String) (l : List α) :
    ∀ seen : List String,
      (∀ r ∈ drop_duplicates_first key l seen, key r ∉ seen) ∧
      ((drop_duplicates_first key l seen).map key).Nodup := by
  induction l with
  | nil => intro seen; simp [drop_duplicates_first]
  | cons r rs ih =>
    intro seen
    by_cases h : key r ∈ seen
    · rw [drop_duplicates_first, if_pos h]
      exact ih seen
    · rw [drop_duplicates_first, if_neg h]
      have ihx := ih (key r :: seen)
      constructor
      · intro x hx
        rcases List.mem_cons.mp hx with rfl | hx2
        · exact h
        · intro hmem
          exact (ihx.1 x hx2) (List.mem_cons_of_mem _ hmem)
      · rw [List.map_cons]
        refine List.nodup_cons.mpr ⟨?_, ihx.2⟩
        intro hmem
        obtain ⟨x, hx, hke⟩ := List.mem_map.mp hmem
        exact (ihx.1 x hx) (hke ▸ List.mem_cons_self _ _)

theorem drop_duplicates_first_filter {α : Type} (key : α → String) (l : List α) :
    ∀ (seen : List String) (e : String),
      (drop_duplicates_first key l seen).filter (fun r => key r == e) =
        if e ∈ seen then [] else (l.filter (fun r => key r == e)).take 1 := by
  induction l with
  | nil =>
    intro seen e
    by_cases h : e ∈ seen <;> simp [drop_duplicates_first, h]
  | cons r rs ih =>
    intro seen e
    by_cases hseen : key r ∈ seen
    · rw [drop_duplicates_first, if_pos hseen, ih]
      by_cases he : e ∈ seen
      · rw [if_pos he, if_pos he]
      · rw [if_neg he, if_neg he]
        have hne : (key r == e) = false := by
          refine beq_eq_false_iff_ne.mpr ?_
          intro hcon
          exact he (hcon ▸ hseen)
        rw [List.filter_cons, hne]
        simp
    · rw [drop_duplicates_first, if_neg hseen, List.filter_cons]
      by_cases hre : key r = e
      · have hreb : (key r == e) = true := beq_iff_eq.mpr hre
        have hens : e ∉ seen := hre ▸ hseen
        rw [if_pos hreb, ih, if_pos (hre ▸ List.mem_cons_self (key r) seen),
          if_neg hens, List.filter_cons, if_pos hreb]
        simp
      · have hreb : (key r == e) = false := beq_eq_false_iff_ne.mpr hre
        rw [if_neg (by simp [hreb]), ih]
        have hmm : (e ∈ key r :: seen) ↔ e ∈ seen := by
          constructor
          · intro hx
            rcases List.mem_cons.mp hx with h1 | h2
            · exact absurd h1.symm hre
            · exact h2
          · exact List.mem_cons_of_mem _
        by_cases he : e ∈ seen
        · rw [if_pos (hmm.mpr he), if_pos he]
        · rw [if_neg (fun hx => he (hmm.mp hx)), if_neg he,
            List.filter_cons, if_neg (by simp [hreb])]

theorem drop_duplicates_first_of_nodup {α : Type} (key : α → String) (l : List α) :
    ∀ seen : List String, (∀ r ∈ l, key r ∉ seen) → (l.map key).Nodup →
      drop_duplicates_first key l seen = l := by
  induction l with
  | nil => intro seen _ _; rfl
  | cons r rs ih =>
    intro seen hout hnd
    rw [drop_duplicates_first, if_neg (hout r (List.mem_cons_self _ _))]
    congr 1
    apply ih
    · intro x hx hmem
      rcases List.mem_cons.mp hmem with h1 | h2
      · have := (List.nodup_cons.mp (List.map_cons key r rs ▸ hnd)).1
        exact this (h1 ▸ List.mem_map.mpr ⟨x, hx, rfl⟩)
      · exact hout x (List.mem_cons_of_mem _ hx) h2
    · exact (List.nodup_cons.mp (List.map_cons key r rs ▸ hnd)).2

/-- C5: consolidation deduplication collapses repeated emails to the first
occurrence in original order (the filter of the output at any email is the
first matching input row), leaves exactly one row per unique email (the
output's keys are `Nodup`), and is idempotent. -/
theorem consolidate_dedup_first {α : Type} (key : α → String) (l : List α) :
    ((drop_duplicates_first key l []).map key).Nodup ∧
    drop_duplicates_first key (drop_duplicates_first key l []) [] =
      drop_duplicates_first key l [] ∧
    ∀ e, (drop_duplicates_first key l []).filter (fun r => key r == e) =
      (l.filter (fun r => key r == e)).take 1 := by
  have hnd := (drop_duplicates_first_unseen key l []).2
  refine ⟨hnd, ?_, ?_⟩
  · exact drop_duplicates_first_of_nodup key _ [] (by simp) hnd
  · intro e
    have h := drop_duplicates_first_filter key l [] e
    simpa using h

/-! ### Claim C6 -/

/-- C6: the canonical consolidation left-joins the roster with a course's
completion records on email: every output row comes from a roster row (so an
email present only in course data never appears), a roster row without a
match gets the explicit `none` marker — never a numeric value such as `0` —
and any numeric value in the output is an actual value from the course data
for that email. -/
theorem consolidate_left_join (roster : List RosterRow) (course : List (String × ℚ)) :
    (∀ p ∈ consolidate_merge roster course, p.1 ∈ roster) ∧
    (∀ r ∈ roster, course.filter (fun c => c.1 == r.email) = [] →
      (r, (none : Option ℚ)) ∈ consolidate_merge roster course) ∧
    (∀ (r : RosterRow) (q : ℚ), (r, some q) ∈ consolidate_merge roster course →
      ∃ c ∈ course, c.1 = r.email ∧ c.2 = q) := by
  refine ⟨?_, ?_, ?_⟩
  · intro p hp
    obtain ⟨r, hr, hmem⟩ := List.mem_flatMap.mp hp
    cases hfil : course.filter (fun c => c.1 == r.email) with
    | nil =>
      rw [hfil] at hmem
      simp only [List.mem_singleton] at hmem
      rw [hmem]
      exact hr
    | cons m ms =>
      rw [hfil] at hmem
      obtain ⟨q, hq, hpr⟩ := List.mem_map.mp hmem
      rw [← hpr]
      exact hr
  · intro r hr hfil
    apply List.mem_flatMap.mpr
    refine ⟨r, hr, ?_⟩
    rw [hfil]
    simp
  · intro r q hmem
    obtain ⟨x, hx, hm⟩ := List.mem_flatMap.mp hmem
    cases hfil : course.filter (fun c => c.1 == x.email) with
    | nil =>
      rw [hfil] at hm
      simp at hm
    | cons m ms =>
      rw [hfil] at hm
      obtain ⟨c, hc, hcq⟩ := List.mem_map.mp hm
      have hcf : c ∈ course.filter (fun c => c.1 == x.email) := hfil ▸ hc
      have hcc := List.mem_filter.mp hcf
      have hx1 : x = r := congrArg Prod.fst hcq
      have hq1 : c.2 = q := by
        have := congrArg Prod.snd hcq
        simpa using this
      exact ⟨c, hcc.1, by rw [← hx1]; exact beq_iff_eq.mp hcc.2, hq1⟩

theorem consolidate_left_join_witness :
    (RosterRow.mk "a@edu.hse.ru" "Alice", (none : Option ℚ)) ∈
      consolidate_merge [RosterRow.mk "a@edu.hse.ru" "Alice"] [("b@edu.hse.ru", (50 : ℚ))] := by
  apply (consolidate_left_join [RosterRow.mk "a@edu.hse.ru" "Alice"]
    [("b@edu.hse.ru", (50 : ℚ))]).2.1
  · decide
  · decide

/-! ### Claims C7 and C8 -/

theorem requiredFields_name_inj :
    ∀ a ∈ requiredFields, ∀ b ∈ requiredFields, a.1 = b.1 → a = b := by decide

theorem fdStep_fold_mono (fioNull : Bool) (fields : List (String × List String)) :
    ∀ (acc : List (String × ColSource)) (p : String × ColSource),
      p ∈ acc → p ∈ fields.foldl (fdStep fioNull) acc := by
  induction fields with
  | nil => intro acc p hp; exact hp
  | cons g gs ih =>
    intro acc p hp
    rw [List.foldl_cons]
    apply ih
    unfold fdStep
    by_cases h : acc.any (fun q => q.1 == g.1) = true
    · rw [if_pos h]; exact hp
    · rw [if_neg h]; exact List.mem_append_left _ hp

theorem fdStep_fold_total (fioNull : Bool) (fields : List (String × List String)) :
    ∀ (acc : List (String × ColSource)), ∀ fld ∈ fields,
      ∃ v, (fld.1, v) ∈ fields.foldl (fdStep fioNull) acc := by
  induction fields with
  | nil => intro acc fld h; simp at h
  | cons g gs ih =>
    intro acc fld hfld
    rw [List.foldl_cons]
    rcases List.mem_cons.mp hfld with rfl | htail
    · by_cases h : acc.any (fun q => q.1 == fld.1) = true
      · obtain ⟨q, hq, hqe⟩ := List.any_eq_true.mp h
        refine ⟨q.2, fdStep_fold_mono fioNull gs _ _ ?_⟩
        unfold fdStep
        rw [if_pos h]
        have : q = (fld.1, q.2) := by
          rw [← beq_iff_eq.mp hqe]
        exact this ▸ hq
      · refine ⟨if fioNull && fld.1 == "ФИО" then ColSource.defaultNull
          else ColSource.defaultEmpty, fdStep_fold_mono fioNull gs _ _ ?_⟩
        unfold fdStep
        rw [if_neg h]
        exact List.mem_append_right _ (List.mem_singleton.mpr rfl)
    · exact ih (fdStep fioNull acc g) fld htail

theorem fdStep_fold_default (fioNull : Bool) (fields : List (String × List String)) :
    ∀ (acc : List (String × ColSource)), (fields.map Prod.fst).Nodup →
      ∀ fld ∈ fields, acc.any (fun q => q.1 == fld.1) = false →
        (fld.1, if fioNull && fld.1 == "ФИО" then ColSource.defaultNull
          else ColSource.defaultEmpty) ∈ fields.foldl (fdStep fioNull) acc := by
  induction fields with
  | nil => intro acc _ fld h; simp at h
  | cons g gs ih =>
    intro acc hnd fld hfld habs
    rw [List.foldl_cons]
    rcases List.mem_cons.mp hfld with rfl | htail
    · apply fdStep_fold_mono
      unfold fdStep
      rw [if_neg (by simp [habs])]
      exact List.mem_append_right _ (List.mem_singleton.mpr rfl)
    · have hnd2 := List.nodup_cons.mp (List.map_cons Prod.fst g gs ▸ hnd)
      have hgf : g.1 ≠ fld.1 := by
        intro hEq
        exact hnd2.1 (hEq ▸ List.mem_map.mpr ⟨fld, htail, rfl⟩)
      have habs2 : (fdStep fioNull acc g).any (fun q => q.1 == fld.1) = false := by
        unfold fdStep
        by_cases hg : acc.any (fun q => q.1 == g.1) = true
        · rw [if_pos hg]
          exact habs
        · rw [if_neg hg, List.any_append, habs]
          simp [hgf]
      exact ih (fdStep fioNull acc g) hnd2.2 fld htail habs2

/-- C7 counterexample: in the `streamlit_app.py` resolver every missing field
— the name field ФИО included — is created with the empty-string default, not
null, contradicting the claim's "null for the name field". -/
theorem resolver_name_default_counterexample :
    List.lookup "ФИО" (resolveSchema false [] 0) = some ColSource.defaultEmpty ∧
    ColSource.defaultEmpty ≠ ColSource.defaultNull := by
  constructor
  · decide
  · decide

/-- C7 (amended): for every input header list the resolver's output contains
every canonical roster field — a field with no matching header (and not
overwritten by the composite user-info column) is created with its default
rather than omitted, so the output schema is fixed; the default is the empty
string for every field in the `streamlit_app.py` variant, while only the
`separated_db_functions.py` variant defaults the name field ФИО to null. -/
theorem resolver_schema_total (fioNull : Bool) (headers : List String) (nParts : Nat) :
    (∀ fld ∈ requiredFields, ∃ v, (fld.1, v) ∈ resolveSchema fioNull headers nParts) ∧
    (∀ fld ∈ requiredFields, findHeaderFor headers fld.2 = none →
      ¬(headers.contains "Данные о пользователе" = true ∧ 4 ≤ nParts) →
      (fld.1, if fioNull && fld.1 == "ФИО" then ColSource.defaultNull
        else ColSource.defaultEmpty) ∈ resolveSchema fioNull headers nParts) := by
  constructor
  · intro fld hfld
    unfold resolveSchema fillDefaults
    exact fdStep_fold_total fioNull requiredFields _ fld hfld
  · intro fld hfld hnone hcomp
    unfold resolveSchema fillDefaults
    apply fdStep_fold_default fioNull requiredFields _ (by decide) fld hfld
    unfold applyUserInfo
    rw [if_neg hcomp]
    rw [List.any_eq_false]
    intro q hq hqe
    obtain ⟨p, hp, hpq⟩ := List.mem_map.mp hq
    obtain ⟨fld2, hfld2, hmap⟩ := List.mem_filterMap.mp hp
    obtain ⟨h, hsome, hph⟩ := Option.map_eq_some'.mp hmap
    have hq1 : q.1 = fld.1 := beq_iff_eq.mp hqe
    have hp1 : p.1 = fld2.1 := by rw [← hph]
    have hq1b : q.1 = p.1 := by rw [← hpq]
    have hname : fld2.1 = fld.1 := by rw [← hp1, ← hq1b, hq1]
    have : fld2 = fld := requiredFields_name_inj fld2 hfld2 fld hfld hname
    rw [this, hnone] at hsome
    exact Option.noConfusion hsome

theorem resolver_schema_total_witness :
    ∃ v, ("ФИО", v) ∈ resolveSchema true [] 0 :=
  (resolver_schema_total true [] 0).1 ("ФИО", ["фио", "фio", "имя", "name"]) (by decide)

theorem lookup_append_left {β : Type} (k : String) (l₁ l₂ : List (String × β)) (v : β)
    (h : List.lookup k l₁ = some v) : List.lookup k (l₁ ++ l₂) = some v := by
  induction l₁ with
  | nil => simp at h
  | cons p ps ih =>
    obtain ⟨k₁, v₁⟩ := p
    rw [List.lookup_cons] at h
    rw [List.cons_append, List.lookup_cons]
    cases hk : (k == k₁)
    · rw [hk] at h
      simp only at h ⊢
      exact ih h
    · rw [hk] at h
      simp only at h ⊢
      exact h

theorem lookup_none_of_any_false {β : Type} (k : String) (m : List (String × β))
    (h : m.any (fun p => p.1 == k) = false) : List.lookup k m = none := by
  induction m with
  | nil => rfl
  | cons p ps ih =>
    obtain ⟨k₁, v₁⟩ := p
    rw [List.any_cons] at h
    have h2 := Bool.or_eq_false_iff.mp h
    have hk : (k == k₁) = false := by
      refine beq_eq_false_iff_ne.mpr ?_
      intro he
      exact (beq_eq_false_iff_ne.mp h2.1) he.symm
    rw [List.lookup_cons, hk]
    simp only
    exact ih h2.2

theorem lookup_append_none {β : Type} (k : String) (l₁ l₂ : List (String × β))
    (h : List.lookup k l₁ = none) : List.lookup k (l₁ ++ l₂) = List.lookup k l₂ := by
  induction l₁ with
  | nil => rfl
  | cons p ps ih =>
    obtain ⟨k₁, v₁⟩ := p
    rw [List.lookup_cons] at h
    rw [List.cons_append, List.lookup_cons]
    cases hk : (k == k₁)
    · rw [hk] at h
      simp only at h ⊢
      exact ih h
    · rw [hk] at h
      simp only at h
      exact Option.noConfusion h

theorem lookup_overwrite_self (k : String) (v : ColSource) :
    ∀ m : List (String × ColSource), m.any (fun p => p.1 == k) = true →
      List.lookup k (m.map (fun p => if p.1 == k then (k, v) else p)) = some v := by
  intro m
  induction m with
  | nil => intro h; simp at h
  | cons p ps ih =>
    intro h
    obtain ⟨k₁, v₁⟩ := p
    rw [List.map_cons]
    by_cases hp : k₁ = k
    · have hb : ((k₁, v₁).1 == k) = true := beq_iff_eq.mpr hp
      rw [if_pos hb, List.lookup_cons]
      simp
    · have hb : ((k₁, v₁).1 == k) = false := beq_eq_false_iff_ne.mpr hp
      rw [if_neg (by simp [hb]), List.lookup_cons]
      have hk : (k == k₁) = false := beq_eq_false_iff_ne.mpr (fun he => hp he.symm)
      rw [hk]
      simp only
      apply ih
      rw [List.any_cons] at h
      rcases Bool.or_eq_true_iff.mp h with h1 | h2
      · rw [hb] at h1
        exact Bool.noConfusion h1
      · exact h2

theorem lookup_overwrite_ne (k k' : String) (v : ColSource) (hne : k' ≠ k) :
    ∀ m : List (String × ColSource),
      List.lookup k' (m.map (fun p => if p.1 == k then (k, v) else p)) =
        List.lookup k' m := by
  intro m
  induction m with
  | nil => rfl
  | cons p ps ih =>
    obtain ⟨k₁, v₁⟩ := p
    rw [List.map_cons]
    by_cases hp : k₁ = k
    · have hb : ((k₁, v₁).1 == k) = true := beq_iff_eq.mpr hp
      rw [if_pos hb, List.lookup_cons, List.lookup_cons]
      have hk1 : (k' == k) = false := beq_eq_false_iff_ne.mpr hne
      have hk2 : (k' == k₁) = false := beq_eq_false_iff_ne.mpr (hp ▸ hne)
      rw [hk1, hk2]
      simp only
      exact ih
    · have hb : ((k₁, v₁).1 == k) = false := beq_eq_false_iff_ne.mpr hp
      rw [if_neg (by simp [hb]), List.lookup_cons, List.lookup_cons]
      cases hk : (k' == k₁)
      · simp only
        exact ih
      · simp only

theorem lookup_setColumn_self {m : List (String × ColSource)} {k : String} {v : ColSource} :
    List.lookup k (setColumn m k v) = some v := by
  unfold setColumn
  by_cases h : m.any (fun p => p.1 == k) = true
  · rw [if_pos h]
    exact lookup_overwrite_self k v m h
  · rw [if_neg h]
    rw [lookup_append_none k m _ (lookup_none_of_any_false k m (Bool.eq_false_iff.mpr h))]
    rw [List.lookup_cons]
    simp

theorem lookup_setColumn_ne {m : List (String × ColSource)} {k k' : String} {v : ColSource}
    (hne : k' ≠ k) : List.lookup k' (setColumn m k v) = List.lookup k' m := by
  unfold setColumn
  by_cases h : m.any (fun p => p.1 == k) = true
  · rw [if_pos h]
    exact lookup_overwrite_ne k k' v hne m
  · rw [if_neg h]
    cases hm : List.lookup k' m with
    | none =>
      rw [lookup_append_none k' m _ hm, List.lookup_cons]
      rw [beq_eq_false_iff_ne.mpr hne]
      rfl
    | some w => exact lookup_append_left k' m _ w hm

theorem lookup_fillDefaults_some (fioNull : Bool) (fields : List (String × List String)) :
    ∀ (acc : List (String × ColSource)) (k : String) (v : ColSource),
      List.lookup k acc = some v →
      List.lookup k (fields.foldl (fdStep fioNull) acc) = some v := by
  induction fields with
  | nil => intro acc k v h; exact h
  | cons g gs ih =>
    intro acc k v h
    rw [List.foldl_cons]
    apply ih
    unfold fdStep
    by_cases hg : acc.any (fun q => q.1 == g.1) = true
    · rw [if_pos hg]
      exact h
    · rw [if_neg hg]
      exact lookup_append_left k acc _ v h

/-- C8: when the composite user-info column is present and its split yields at
least four parts, its four positional parts overwrite the four target fields
(faculty, program, course level, group) in the resolver's output, regardless
of what synonym matching resolved for them. -/
theorem composite_user_info_overrides (fioNull : Bool) (headers : List String) (nParts : Nat)
    (hc : headers.contains "Данные о пользователе" = true) (hn : 4 ≤ nParts) :
    List.lookup "Факультет" (resolveSchema fioNull headers nParts) =
      some (ColSource.userInfoPart 0) ∧
    List.lookup "Образовательная программа" (resolveSchema fioNull headers nParts) =
      some (ColSource.userInfoPart 1) ∧
    List.lookup "Курс" (resolveSchema fioNull headers nParts) =
      some (ColSource.userInfoPart 2) ∧
    List.lookup "Группа" (resolveSchema fioNull headers nParts) =
      some (ColSource.userInfoPart 3) := by
  unfold resolveSchema fillDefaults applyUserInfo
  rw [if_pos ⟨hc, hn⟩]
  refine ⟨?_, ?_, ?_, ?_⟩
  · apply lookup_fillDefaults_some
    rw [lookup_setColumn_ne (by decide), lookup_setColumn_ne (by decide),
      lookup_setColumn_ne (by decide)]
    exact lookup_setColumn_self
  · apply lookup_fillDefaults_some
    rw [lookup_setColumn_ne (by decide), lookup_setColumn_ne (by decide)]
    exact lookup_setColumn_self
  · apply lookup_fillDefaults_some
    rw [lookup_setColumn_ne (by decide)]
    exact lookup_setColumn_self
  · apply lookup_fillDefaults_some
    exact lookup_setColumn_self

theorem composite_user_info_overrides_witness :
    List.lookup "Факультет" (resolveSchema true ["Данные о пользователе", "Факультет"] 4) =
      some (ColSource.userInfoPart 0) :=
  (composite_user_info_overrides true ["Данные о пользователе", "Факультет"] 4
    (by decide) (by decide)).1

/-! ### Claim C9 -/

/-- C9 counterexample, one failure per cited sink path.  In the Google-Sheets
incremental merge a non-null incoming `0` in a percentage field does NOT
replace the stored `50`, because `update_google_sheet_incremental` tests
`row[col] != 0` and treats an incoming zero like a missing value.  In the
Supabase path an incoming null percentage on a record that needs an update
overwrites the stored `50` with null, because `upload_to_supabase` replaces
the whole row rather than merging field by field.  Each contradicts the
claimed field-level "new non-null value wins, else keep existing". -/
theorem remote_upsert_policy_counterexample :
    (merge_percent_field (some 0) (some 50) = 50 ∧ (50 : ℚ) ≠ 0) ∧
    (upload_to_supabase_update (CARecord.mk [] [none]) (CARecord.mk [] [some 50]) =
       CARecord.mk [] [none] ∧ (none : Option ℚ) ≠ some 50) := by
  refine ⟨⟨rfl, by norm_num⟩, rfl, by simp⟩

/-- C9 (amended): neither cited remote-persistence path implements a uniform
field-level "new non-null value wins, else keep existing" policy.  The
Google-Sheets incremental update is field-level, with the rule holding for
the roster text fields, but a percentage field takes the incoming value only
when it is non-null AND non-zero — an incoming null or zero keeps the stored
non-null value, and the field becomes `0` only when both sides are missing.
The Supabase path is row-level: a differing percentage field (in particular
any null-versus-value disagreement) marks the record as needing an update,
and the update then writes the whole incoming record over the stored row,
nulls included; when no compared field differs the stored row is kept. -/
theorem remote_upsert_field_policy :
    (∀ (v : String) (o : Option String), merge_text_field (some v) o = some v) ∧
    (∀ o : Option String, merge_text_field none o = o) ∧
    (∀ (q : ℚ) (o : Option ℚ), q ≠ 0 → merge_percent_field (some q) o = q) ∧
    (∀ r : ℚ, merge_percent_field (some 0) (some r) = r ∧
      merge_percent_field none (some r) = r) ∧
    (merge_percent_field (some 0) none = 0 ∧ merge_percent_field none none = 0) ∧
    (∀ r : ℚ, percentFieldDiffers none (some r) = true) ∧
    (∀ newR oldR : CARecord,
      (newR.percentFields.zip oldR.percentFields).any
        (fun p => percentFieldDiffers p.1 p.2) = true →
      upload_to_supabase_update newR oldR = newR) ∧
    (∀ newR oldR : CARecord, needsUpdate newR oldR = false →
      upload_to_supabase_update newR oldR = oldR) := by
  refine ⟨fun v o => rfl, fun o => rfl, ?_, fun r => ⟨?_, rfl⟩, ⟨?_, rfl⟩,
    fun r => rfl, ?_, ?_⟩
  · intro q o hq
    simp [merge_percent_field, hq]
  · simp [merge_percent_field]
  · simp [merge_percent_field]
  · intro newR oldR h
    have hup : needsUpdate newR oldR = true := by
      unfold needsUpdate
      rw [h, Bool.or_true]
    unfold upload_to_supabase_update
    rw [if_pos hup]
  · intro newR oldR h
    unfold upload_to_supabase_update
    rw [if_neg (by simp [h])]

theorem remote_upsert_field_policy_witness :
    merge_percent_field (some 5) (some 1) = 5 :=
  remote_upsert_field_policy.2.2.1 5 (some 1) (by norm_num)

/-! ### Claim C10 -/

theorem upload_records_unseen (rows : List StudentRow) :
    ∀ seen : List String,
      (∀ p ∈ upload_students_records rows seen, p.1 ∉ seen) ∧
      ((upload_students_records rows seen).map Prod.fst).Nodup := by
  induction rows with
  | nil => intro seen; simp [upload_students_records]
  | cons r rs ih =>
    intro seen
    by_cases hg : (rowEmailNorm r == "" || !pyContains (rowEmailNorm r) hseMarker) = true
    · rw [upload_students_records, if_pos hg]
      exact ih seen
    · rw [upload_students_records, if_neg hg]
      by_cases hs : rowEmailNorm r ∈ seen
      · rw [if_pos hs]
        exact ih seen
      · rw [if_neg hs]
        have ihx := ih (rowEmailNorm r :: seen)
        constructor
        · intro p hp
          rcases List.mem_cons.mp hp with rfl | hp2
          · exact hs
          · intro hmem
            exact (ihx.1 p hp2) (List.mem_cons_of_mem _ hmem)
        · rw [List.map_cons]
          refine List.nodup_cons.mpr ⟨?_, ihx.2⟩
          intro hmem
          obtain ⟨p, hp, hke⟩ := List.mem_map.mp hmem
          exact (ihx.1 p hp) (hke ▸ List.mem_cons_self _ _)

theorem upload_records_marker (rows : List StudentRow) :
    ∀ seen : List String, ∀ p ∈ upload_students_records rows seen,
      pyContains p.1 hseMarker = true := by
  induction rows with
  | nil => intro seen p hp; simp [upload_students_records] at hp
  | cons r rs ih =>
    intro seen p hp
    by_cases hg : (rowEmailNorm r == "" || !pyContains (rowEmailNorm r) hseMarker) = true
    · rw [upload_students_records, if_pos hg] at hp
      exact ih seen p hp
    · rw [upload_students_records, if_neg hg] at hp
      have hmk : pyContains (rowEmailNorm r) hseMarker = true := by
        rcases Bool.or_eq_false_iff.mp (Bool.eq_false_iff.mpr hg) with ⟨_, h2⟩
        simpa using h2
      by_cases hs : rowEmailNorm r ∈ seen
      · rw [if_pos hs] at hp
        exact ih seen p hp
      · rw [if_neg hs] at hp
        rcases List.mem_cons.mp hp with rfl | hp2
        · exact hmk
        · exact ih _ p hp2

theorem rowQualifies_eq_not_guard (r : StudentRow) :
    rowQualifies r =
      !(rowEmailNorm r == "" || !pyContains (rowEmailNorm r) hseMarker) := by
  unfold rowQualifies
  cases h1 : (rowEmailNorm r == "") <;>
    cases h2 : pyContains (rowEmailNorm r) hseMarker <;> simp [h1, h2]

theorem upload_records_filter (rows : List StudentRow) :
    ∀ (seen : List String) (e : String),
      (upload_students_records rows seen).filter (fun p => p.1 == e) =
        if e ∈ seen then []
        else (((rows.filter rowQualifies).map (fun r => (rowEmailNorm r, r.payload))).filter
          (fun p => p.1 == e)).take 1 := by
  induction rows with
  | nil =>
    intro seen e
    by_cases h : e ∈ seen <;> simp [upload_students_records, h]
  | cons r rs ih =>
    intro seen e
    by_cases hg : (rowEmailNorm r == "" || !pyContains (rowEmailNorm r) hseMarker) = true
    · have hq : rowQualifies r = false := by
        rw [rowQualifies_eq_not_guard, hg]
        rfl
      have hrw : (r :: rs).filter rowQualifies = rs.filter rowQualifies := by
        rw [List.filter_cons, hq]
        simp
      rw [upload_students_records, if_pos hg, ih, hrw]
    · have hgf : (rowEmailNorm r == "" || !pyContains (rowEmailNorm r) hseMarker) = false :=
        Bool.eq_false_iff.mpr hg
      have hq : rowQualifies r = true := by
        rw [rowQualifies_eq_not_guard, hgf]
        rfl
      have hrw : (r :: rs).filter rowQualifies = r :: rs.filter rowQualifies := by
        rw [List.filter_cons, hq]
        simp
      rw [upload_students_records, if_neg hg, hrw, List.map_cons]
      by_cases hs : rowEmailNorm r ∈ seen
      · rw [if_pos hs, ih]
        by_cases he : e ∈ seen
        · rw [if_pos he, if_pos he]
        · have hne : (rowEmailNorm r == e) = false := by
            refine beq_eq_false_iff_ne.mpr ?_
            intro hcon
            exact he (hcon ▸ hs)
          rw [if_neg he, if_neg he, List.filter_cons]
          simp [hne]
      · rw [if_neg hs, List.filter_cons]
        by_cases hre : rowEmailNorm r = e
        · have hreb : ((rowEmailNorm r, r.payload).1 == e) = true := beq_iff_eq.mpr hre
          have hens : e ∉ seen := fun h => hs (hre ▸ h)
          rw [if_pos hreb, ih,
            if_pos (show e ∈ rowEmailNorm r :: seen from hre ▸ List.mem_cons_self _ _),
            if_neg hens, List.filter_cons, if_pos hreb]
          simp
        · have hreb : ((rowEmailNorm r, r.payload).1 == e) = false :=
            beq_eq_false_iff_ne.mpr hre
          have hmm : (e ∈ rowEmailNorm r :: seen) ↔ e ∈ seen := by
            constructor
            · intro hx
              rcases List.mem_cons.mp hx with h1 | h2
              · exact absurd h1.symm hre
              · exact h2
            · exact List.mem_cons_of_mem _
          rw [if_neg (by simp [hreb]), ih]
          by_cases he : e ∈ seen
          · rw [if_pos (hmm.mpr he), if_pos he]
          · rw [if_neg (fun hx => he (hmm.mp hx)), if_neg he, List.filter_cons,
              if_neg (by simp [hreb])]

/-- C10: within one upload run the record-preparation loop emits at most one
record per normalized email (the emitted keys are `Nodup`), never emits an
email lacking the institutional domain marker, and for each email emits
exactly the first qualifying occurrence: filtering the output at any email
equals taking the first element of the filtered qualifying input rows. -/
theorem upload_one_write_per_email (rows : List StudentRow) :
    ((upload_students_records rows []).map Prod.fst).Nodup ∧
    (∀ p ∈ upload_students_records rows [], pyContains p.1 hseMarker = true) ∧
    (∀ e, (upload_students_records rows []).filter (fun p => p.1 == e) =
      (((rows.filter rowQualifies).map (fun r => (rowEmailNorm r, r.payload))).filter
        (fun p => p.1 == e)).take 1) := by
  refine ⟨(upload_records_unseen rows []).2, upload_records_marker rows [], ?_⟩
  intro e
  have h := upload_records_filter rows [] e
  simpa using h

theorem upload_one_write_per_email_witness :
    (upload_students_records
        [StudentRow.mk (some "a@edu.hse.ru") "X", StudentRow.mk (some " A@edu.hse.ru") "Y"]
        []).filter (fun p => p.1 == "a@edu.hse.ru") = [("a@edu.hse.ru", "X")] := by
  rw [(upload_one_write_per_email
    [StudentRow.mk (some "a@edu.hse.ru") "X",
     StudentRow.mk (some " A@edu.hse.ru") "Y"]).2.2 "a@edu.hse.ru"]
  decide
